import Mathlib

/-!
# Lattice kernel support layer: secure memory regions, scratch stack, gateway bracket

A shallow embedding of

* `linux/modules/tee_mod/main.c`   (`fixed_size`, `alloc_blocks`, `mem_mmap`, `free_region`,
  `mem_release`),
* `linux/lib/vstack.c`             (`vs_create`, `vs_store`),
* `linux/modules/example_ioctl/main.c` (`ioctl`),

followed by the properties of these functions.

Conventions of the embedding.

* `size_t`, `unsigned long` and `uintptr_t` are 64-bit: a value is a `Nat`, and every
  operation that can leave the range is reduced `% 2 ^ 64`.  `unsigned int` is reduced
  `% 2 ^ 32`.
* `PAGE_SHIFT` and `MAX_ORDER` come from the kernel configuration, not from this repository;
  they are parameters of every function that uses them.  `1UL << n` is written `2 ^ n`
  (C defines it for `n < 64` only).
* A `struct page *` is `Option Page` (`none` is `NULL`), a page being identified with its
  page frame number, so `page_to_pfn` of a non-null pointer is the page itself.
* The host kernel (page allocator, slab allocator, `remap_pfn_range`) is an oracle: each
  answer is a function of the history of calls made so far, and every call is appended to
  that history.  Quantifying over all oracles covers every host behaviour.
-/

namespace Lattice

/-! ## Machine arithmetic -/

/-- Scan for the highest set bit: the loop behind the kernel's generic `fls`. -/
def flsAux : Nat → Nat → Nat
  | 0, _ => 0
  | fuel + 1, x => if x = 0 then 0 else flsAux fuel (x / 2) + 1

/-- The kernel's `int fls(unsigned int x)`: position of the most significant set bit,
counted from 1, and 0 for `x = 0`.  The argument is converted to `unsigned int` first. -/
def fls (x : Nat) : Nat := flsAux 32 (x % 2 ^ 32)

/-- Conversion of an `int` to `unsigned int`. -/
def to_uint (x : Int) : Nat := (x % 2 ^ 32).toNat

/-- The constant `PAGE_SIZE`, that is `1UL << PAGE_SHIFT`. -/
def PAGE_SIZE (PAGE_SHIFT : Nat) : Nat := 2 ^ PAGE_SHIFT

/-- The errno value `ENOMEM`. -/
def ENOMEM : Int := 12

/-- The errno value `EFAULT`. -/
def EFAULT : Int := 14

/-- The errno value `EINVAL`. -/
def EINVAL : Int := 22

/-! ## `tee_mod`: sizing -/

/-- The first line shared by `fixed_size` and `alloc_blocks`:
`(size + PAGE_SIZE - 1) >> PAGE_SHIFT` in `size_t` arithmetic. -/
def pages_needed (PAGE_SHIFT size : Nat) : Nat :=
  ((size + PAGE_SIZE PAGE_SHIFT - 1) % 2 ^ 64) / 2 ^ PAGE_SHIFT

/-- The function `fixed_size` of `tee_mod/main.c`.  `pages_needed - 1` is a `size_t`
subtraction (it wraps at 0) and `fls` truncates its argument to 32 bits. -/
def fixed_size (PAGE_SHIFT MAX_ORDER size : Nat) : Nat :=
  let pn := pages_needed PAGE_SHIFT size
  let pn :=
    if pn < 2 ^ MAX_ORDER then
      2 ^ (min (fls ((pn + 2 ^ 64 - 1) % 2 ^ 64)) MAX_ORDER)
    else pn
  (PAGE_SIZE PAGE_SHIFT * pn) % 2 ^ 64

/-! ## `tee_mod`: the host kernel as an oracle -/

/-- A physical page, named by its page frame number. -/
abbrev Page := Nat

/-- One call into the host kernel, with its answer. -/
inductive Event
  | alloc_pages (order : Nat) (result : Option Page)
  | free_pages (page : Page) (order : Nat)
  | kmalloc (ok : Bool)
  | kfree_block
  | kfree_region
  | remap_pfn_range (addr pfn size : Nat) (ret : Int)
  deriving DecidableEq

/-- The host kernel.  Every answer may depend on the whole history of calls.
`uninit_page` is the indeterminate value an automatic `struct page *page` holds when it is
read before any assignment; `uninit_extra` is the indeterminate content of the `extra`
field of a block fresh from `kmalloc`; `null_pfn` is what `page_to_pfn(NULL)` evaluates
to. -/
structure Host where
  alloc_pages : List Event → Nat → Option Page
  kmalloc : List Event → Bool
  remap_pfn_range : List Event → Nat → Nat → Nat → Int
  uninit_page : List Event → Option Page
  uninit_extra : List Event → Option Page
  null_pfn : Nat

/-- The source's `struct mem_block` (the list linkage is the position in the list). -/
structure mem_block where
  page : Page
  order : Nat
  extra : Option Page
  deriving DecidableEq

/-- The source's `struct mem_region`. -/
structure mem_region where
  blocks : List mem_block
  size : Nat
  deriving DecidableEq

/-- The macro `page_to_pfn` applied to a possibly null pointer. -/
def page_to_pfn (host : Host) : Option Page → Nat
  | some p => p
  | none => host.null_pfn

/-! ## `tee_mod`: building a region -/

/-- The first value of `order` in one round of `alloc_blocks`:
`unsigned int order = min(fls(pages_needed) - 1, MAX_ORDER)`, an `int` minimum converted
to `unsigned int`. -/
def first_order (MAX_ORDER pn : Nat) : Nat :=
  to_uint (min ((fls pn : Int) - 1) (MAX_ORDER : Int))

/-- The inner loop of `alloc_blocks`,
`while (order > 0 && !(page = alloc_pages(GFP_HIGHUSER, order))) order--;`,
from the current `order`, the current content of `page`, and the history.  It yields the
final `order`, the final `page` and the extended history.  At `order = 0` the condition is
false before any call is made, so `page` keeps what it held. -/
def alloc_retry (host : Host) : Nat → Option Page → List Event → Nat × Option Page × List Event
  | 0, page, log => (0, page, log)
  | order + 1, _, log =>
    match host.alloc_pages log (order + 1) with
    | some pg => (order + 1, some pg, log ++ [Event.alloc_pages (order + 1) (some pg)])
    | none => alloc_retry host order none (log ++ [Event.alloc_pages (order + 1) none])

/-- The outer loop `while (pages_needed > 0)` of `alloc_blocks`.  The first argument bounds
the number of rounds; `none` means the bound was reached.  `1 << order` is `2 ^ order`
(C defines the `int` shift for `order ≤ 30`). -/
def alloc_loop (host : Host) (MAX_ORDER : Nat) :
    Nat → Nat → List mem_block → List Event → Option (Int × List mem_block × List Event)
  | _, 0, blocks, log => some (0, blocks, log)
  | 0, _ + 1, _, _ => none
  | fuel + 1, pn + 1, blocks, log =>
    match alloc_retry host (first_order MAX_ORDER (pn + 1)) (host.uninit_page log) log with
    | (_, none, log1) => some (-ENOMEM, blocks, log1)
    | (order, some page, log1) =>
      if host.kmalloc log1 then
        let block : mem_block := ⟨page, order, host.uninit_extra log1⟩
        let pn1 := if pn + 1 > 2 ^ order then pn + 1 - 2 ^ order else 0
        alloc_loop host MAX_ORDER fuel pn1 (blocks ++ [block]) (log1 ++ [Event.kmalloc true])
      else
        some (-ENOMEM, blocks, log1 ++ [Event.kmalloc false, Event.free_pages page order])

/-- The function `alloc_blocks` of `tee_mod/main.c`: return value, region afterwards and
history afterwards.  Every round lowers `pages_needed`, so `pages_needed` rounds are
enough (`alloc_blocks_total`). -/
def alloc_blocks (host : Host) (PAGE_SHIFT MAX_ORDER : Nat) (region : mem_region) (size : Nat)
    (log : List Event) : Option (Int × mem_region × List Event) :=
  let pn := pages_needed PAGE_SHIFT size
  match alloc_loop host MAX_ORDER pn pn region.blocks log with
  | some (ret, blocks, log1) => some (ret, { region with blocks := blocks }, log1)
  | none => none

/-! ## `tee_mod`: mapping a region -/

/-- The loop `list_for_each_entry(block, &region->blocks, list)` of `mem_mmap`, from the
blocks still to visit, the cursor `addr` and the history.  It yields the return value, the
visited blocks as they are afterwards (`extra` assigned) followed by the unvisited ones, and
the history. -/
def mmap_loop (host : Host) (PAGE_SHIFT : Nat) :
    List mem_block → Nat → List Event → Int × List mem_block × List Event
  | [], _, log => (0, [], log)
  | block :: rest, addr, log =>
    let pfn := block.page
    let block_size := (PAGE_SIZE PAGE_SHIFT * 2 ^ block.order) % 2 ^ 64
    let len1 := (block_size + 2 ^ 64 - PAGE_SIZE PAGE_SHIFT) % 2 ^ 64
    let ret := host.remap_pfn_range log addr pfn len1
    let log1 := log ++ [Event.remap_pfn_range addr pfn len1 ret]
    if ret ≠ 0 then (ret, block :: rest, log1)
    else
      let extra := host.alloc_pages log1 0
      let log2 := log1 ++ [Event.alloc_pages 0 extra]
      let block1 : mem_block := { block with extra := extra }
      let pfn2 := page_to_pfn host extra
      let addr2 := (addr + block_size + 2 ^ 64 - PAGE_SIZE PAGE_SHIFT) % 2 ^ 64
      let ret2 := host.remap_pfn_range log2 addr2 pfn2 (PAGE_SIZE PAGE_SHIFT)
      let log3 := log2 ++ [Event.remap_pfn_range addr2 pfn2 (PAGE_SIZE PAGE_SHIFT) ret2]
      if ret2 ≠ 0 then (ret2, block1 :: rest, log3)
      else
        match mmap_loop host PAGE_SHIFT rest ((addr + block_size) % 2 ^ 64) log3 with
        | (r, rest1, log4) => (r, block1 :: rest1, log4)

/-- The function `mem_mmap` of `tee_mod/main.c` on the region behind `filp` and the start
address `vma->vm_start`. -/
def mem_mmap (host : Host) (PAGE_SHIFT MAX_ORDER : Nat) (region : mem_region) (vm_start : Nat)
    (log : List Event) : Option (Int × mem_region × List Event) :=
  match alloc_blocks host PAGE_SHIFT MAX_ORDER region region.size log with
  | none => none
  | some (ret, region1, log1) =>
    if ret ≠ 0 then some (ret, region1, log1)
    else
      match mmap_loop host PAGE_SHIFT region1.blocks vm_start log1 with
      | (r, blocks, log2) => some (r, { region1 with blocks := blocks }, log2)

/-! ## `tee_mod`: releasing a region -/

/-- The loop `list_for_each_entry_safe` of `free_region`: each visited block is freed
(base run, then the extra page when it is not `NULL`), unlinked with `list_del` and its
node passed to `kfree`.  It yields the list that is left and the history. -/
def free_loop : List mem_block → List Event → List mem_block × List Event
  | [], log => ([], log)
  | block :: rest, log =>
    let log1 := log ++ [Event.free_pages block.page block.order]
    let log2 :=
      match block.extra with
      | some e => log1 ++ [Event.free_pages e 0]
      | none => log1
    free_loop rest (log2 ++ [Event.kfree_block])

/-- The function `free_region` of `tee_mod/main.c`. -/
def free_region (region : mem_region) (log : List Event) : mem_region × List Event :=
  match free_loop region.blocks log with
  | (blocks, log1) => ({ region with blocks := blocks }, log1)

/-- The function `mem_release` of `tee_mod/main.c`: `free_region`, then `kfree(region)`. -/
def mem_release (region : mem_region) (log : List Event) : Int × mem_region × List Event :=
  match free_region region log with
  | (region1, log1) => (0, region1, log1 ++ [Event.kfree_region])

/-! ## `vstack`: the scratch stack -/

/-- The value of `sizeof(struct vstack)`: eight `size_t` registers, `size` and `sp`,
eight bytes each. -/
def sizeof_vstack : Nat := 80

/-- The value of `offsetof(struct vstack, size)`: the field follows the eight registers;
`sp` follows it at offset 72. -/
def offsetof_size : Nat := 64

/-- The source's `struct vstack`, together with the address `base` it lives at: the header
occupies `base` to `base + 79`, the fields being little-endian words.  The `regs` array is
neither read nor written through its name by `vs_create` and `vs_store` and is left out.
Pointers are addresses, `0` being `NULL`. -/
structure vstack where
  base : Nat
  size : Nat
  sp : Nat
  deriving DecidableEq

/-- The macro `vs_bp`: the first address after the header. -/
def vs_bp (vs : vstack) : Nat := (vs.base + sizeof_vstack) % 2 ^ 64

/-- The function `vs_create` of `lib/vstack.c`; `none` is the `NULL` result. -/
def vs_create (start len : Nat) : Option vstack :=
  if start = 0 then none
  else
    let size := (len + 2 ^ 64 - sizeof_vstack) % 2 ^ 64
    some { base := start, size := size, sp := (start + len) % 2 ^ 64 }

/-- The result of the static `memcpy` of `lib/vstack.c`: `NULL` when either pointer is
`NULL` (nothing is copied then), `dest` otherwise. -/
def memcpy (dest src : Nat) : Nat :=
  if dest = 0 ∨ src = 0 then 0 else dest

/-- The effect of the copy loop of `memcpy`, `while (n--) *d++ = *s++;`, on an 8-byte
little-endian word at address `field` that held `old`: the loop writes the byte `bytes k`
to the address `dest + k` for each `k < n` (addresses wrap at `2 ^ 64`), so byte `i` of the
word is the copied byte when its address was written and the old byte otherwise. -/
def field_after_copy (field old dest : Nat) (bytes : Nat → Nat) (n : Nat) : Nat :=
  ((List.range 8).map (fun i =>
    256 ^ i *
      (if ((field + i) % 2 ^ 64 + 2 ^ 64 - dest % 2 ^ 64) % 2 ^ 64 < n then
        bytes (((field + i) % 2 ^ 64 + 2 ^ 64 - dest % 2 ^ 64) % 2 ^ 64) % 256
      else (old / 256 ^ i) % 256))).sum

/-- The function `vs_store` of `lib/vstack.c`: the returned pointer (`0` is `NULL`) and the
stack afterwards.  `value` is the source pointer and `bytes k` the byte it holds at offset
`k`, as the copy loop reads it.  The copy can reach the header itself: the bytes that land
on the field `size` change it, and those that land on `sp` are overwritten by the
assignment `vs->sp = new` that follows. -/
def vs_store (vs : vstack) (value : Nat) (bytes : Nat → Nat) (len : Nat) : Nat × vstack :=
  if vs.size < len then (0, vs)
  else
    let new := (vs.sp + 2 ^ 64 - len) % 2 ^ 64
    if memcpy new value = 0 then (0, vs)
    else
      (new, { vs with
        size := field_after_copy (vs.base + offsetof_size) vs.size new bytes len
        sp := new })

/-- A sequence of pushes `(value, bytes, len)`: the pointers returned, in order, and the
final stack. -/
def vs_store_all : vstack → List (Nat × (Nat → Nat) × Nat) → List Nat × vstack
  | vs, [] => ([], vs)
  | vs, (value, bytes, len) :: rest =>
    match vs_store vs value bytes len with
    | (p, vs1) =>
      match vs_store_all vs1 rest with
      | (ps, vs2) => (p :: ps, vs2)

/-! ## `example_ioctl`: the handler that brackets its work with the gateway -/

/-- A gateway transition made through the macros of `lde.h`. -/
inductive Ecall
  | ecall_eenter
  | ecall_eexit
  deriving DecidableEq

/-- What the handler cannot decide by itself in one invocation: the result of
`copy_from_user` (bytes not copied), the 128 bytes of `user_arg.buf` after it, the number
of non-zero bytes `strlen` meets behind the array when the array holds no zero byte, and
the result of `copy_to_user`. -/
structure IoctlEnv where
  copy_from_user : Nat
  buf : List Nat
  beyond : Nat
  copy_to_user : Nat

/-- The value of `sizeof(user_arg.buf)`. -/
def sizeof_buf : Nat := 128

/-- The bytes of the literal `" from kernel"`, without the terminator. -/
def from_kernel : List Nat := [32, 102, 114, 111, 109, 32, 107, 101, 114, 110, 101, 108]

/-- The call `strlen(user_arg.buf)`: the index of the first zero byte, reading on behind the
array when it has none. -/
def strlen (buf : List Nat) (beyond : Nat) : Nat :=
  if buf.findIdx (fun b => b = 0) < buf.length then buf.findIdx (fun b => b = 0)
  else buf.length + beyond

/-- The call `strncat(user_arg.buf, " from kernel", sizeof(user_arg.buf) - len - 1)` on a
buffer whose string has length `len`: at most `n` bytes of the suffix, then a zero byte. -/
def strncat (buf : List Nat) (len n : Nat) : List Nat :=
  buf.take len ++ from_kernel.take n ++ [0] ++ buf.drop (len + (from_kernel.take n).length + 1)

/-- The function `ioctl` of `example_ioctl/main.c`: the return value, the gateway calls it
made, in order, and the buffer handed to `copy_to_user` if that call was reached.
`IOCTL_UPDATE_BUF` is the command number the kernel's `_IOW` macro computes. -/
def ioctl (IOCTL_UPDATE_BUF : Nat) (env : IoctlEnv) (cmd arg : Nat) :
    Int × List Ecall × Option (List Nat) :=
  if cmd = IOCTL_UPDATE_BUF then
    if arg = 0 then (-EFAULT, [], none)
    else
      let trace := [Ecall.ecall_eenter]
      if env.copy_from_user ≠ 0 then (-EFAULT, trace ++ [Ecall.ecall_eexit], none)
      else
        let len := strlen env.buf env.beyond
        if (len + (from_kernel.length + 1)) % 2 ^ 64 > sizeof_buf then
          (-EINVAL, trace ++ [Ecall.ecall_eexit], none)
        else
          let buf := strncat env.buf len (sizeof_buf - len - 1)
          if env.copy_to_user ≠ 0 then (-EFAULT, trace ++ [Ecall.ecall_eexit], some buf)
          else (0, trace ++ [Ecall.ecall_eexit], some buf)
  else (-EINVAL, [], none)

/-! ## Concrete hosts and inputs used to run the functions -/

/-- A host that refuses every run of two pages or more, would hand out page `7` for a
single-page request, and has slab memory. -/
def host_single_only : Host where
  alloc_pages := fun _ order => if order = 0 then some 7 else none
  kmalloc := fun _ => true
  remap_pfn_range := fun _ _ _ _ => 0
  uninit_page := fun _ => none
  uninit_extra := fun _ => none
  null_pfn := 0

/-- A host whose page allocator grants exactly its second request (page `4096`) and refuses
all others. -/
def host_second_only : Host where
  alloc_pages := fun log _ => if log.length = 1 then some 4096 else none
  kmalloc := fun _ => true
  remap_pfn_range := fun _ _ _ _ => 0
  uninit_page := fun _ => none
  uninit_extra := fun _ => none
  null_pfn := 0

/-- A host that always has memory: request number `n` in the history is answered with the
page `1024 * (n + 1)`, every mapping succeeds. -/
def host_plenty : Host where
  alloc_pages := fun log _ => some (1024 * (log.length + 1))
  kmalloc := fun _ => true
  remap_pfn_range := fun _ _ _ _ => 0
  uninit_page := fun _ => none
  uninit_extra := fun _ => none
  null_pfn := 0

/-- A host whose page allocator grants its first request (page `512`) and refuses all later
ones, while every mapping succeeds. -/
def host_first_only : Host where
  alloc_pages := fun log _ => if log.length = 0 then some 512 else none
  kmalloc := fun _ => true
  remap_pfn_range := fun _ _ _ _ => 0
  uninit_page := fun _ => none
  uninit_extra := fun _ => none
  null_pfn := 0

/-- A host with no free page at all, at a moment when the stack slot of `page` holds the
stale non-null value `99`. -/
def host_stale : Host where
  alloc_pages := fun _ _ => none
  kmalloc := fun _ => true
  remap_pfn_range := fun _ _ _ _ => 0
  uninit_page := fun _ => some 99
  uninit_extra := fun _ => none
  null_pfn := 0

/-- A host with free pages (every request is answered with page `1024`) but no slab memory
for the block node. -/
def host_no_slab : Host where
  alloc_pages := fun _ _ => some 1024
  kmalloc := fun _ => false
  remap_pfn_range := fun _ _ _ _ => 0
  uninit_page := fun _ => none
  uninit_extra := fun _ => none
  null_pfn := 0

/-! ## The mapping layout in the spec's words -/

/-- The calls the layout rule prescribes for blocks that already carry their extra page,
from the cursor `c`: per block the base run at `c` for `2 ^ order - 1` pages, the
allocation that produced the extra page, and the extra page at the last page slot; the
cursor then advances by `2 ^ order` pages.  No wrap-around is involved. -/
def layout_events (host : Host) (PAGE_SHIFT : Nat) : List mem_block → Nat → List Event
  | [], _ => []
  | b :: rest, c =>
    [Event.remap_pfn_range c b.page ((2 ^ b.order - 1) * PAGE_SIZE PAGE_SHIFT) 0,
      Event.alloc_pages 0 b.extra,
      Event.remap_pfn_range (c + (2 ^ b.order - 1) * PAGE_SIZE PAGE_SHIFT)
        (page_to_pfn host b.extra) (PAGE_SIZE PAGE_SHIFT) 0]
      ++ layout_events host PAGE_SHIFT rest (c + 2 ^ b.order * PAGE_SIZE PAGE_SHIFT)

/-! ## What release owes the host for one block -/

/-- The calls that hand one block back: its base run with its order, its extra page when
there is one, and the node itself. -/
def block_frees (block : mem_block) : List Event :=
  [Event.free_pages block.page block.order]
    ++ (match block.extra with
        | some e => [Event.free_pages e 0]
        | none => [])
    ++ [Event.kfree_block]

/-! ## Arithmetic facts -/

theorem flsAux_le_iff (n x k : Nat) (hx : x < 2 ^ n) : flsAux n x ≤ k ↔ x < 2 ^ k := by
  induction n generalizing x k with
  | zero =>
    simp at hx
    subst hx
    simp [flsAux]
  | succ n ih =>
    unfold flsAux
    by_cases h0 : x = 0
    · simp [h0]
    · simp only [h0, if_false]
      have hx2 : x / 2 < 2 ^ n := by
        rw [Nat.div_lt_iff_lt_mul (by norm_num)]
        rw [pow_succ] at hx
        exact hx
      cases k with
      | zero =>
        simp
        omega
      | succ k =>
        rw [Nat.succ_le_succ_iff, ih (x / 2) k hx2, pow_succ]
        rw [Nat.div_lt_iff_lt_mul (by norm_num)]

theorem fls_le_iff (x k : Nat) : fls x ≤ k ↔ x % 2 ^ 32 < 2 ^ k :=
  flsAux_le_iff 32 (x % 2 ^ 32) k (Nat.mod_lt _ (by norm_num))

theorem fls_le_32 (x : Nat) : fls x ≤ 32 :=
  (fls_le_iff x 32).2 (Nat.mod_lt _ (by norm_num))

theorem two_pow_le_of_fls (x : Nat) (hx : x % 2 ^ 32 ≠ 0) : 2 ^ (fls x - 1) ≤ x % 2 ^ 32 := by
  by_contra h
  have h1 : x % 2 ^ 32 < 2 ^ (fls x - 1) := by omega
  have h2 := (fls_le_iff x (fls x - 1)).2 h1
  have h3 : fls x = 0 := by omega
  have h4 := (fls_le_iff x 0).1 (by omega)
  simp at h4
  omega

theorem page_mul_lt (PAGE_SHIFT q : Nat) (hps : PAGE_SHIFT ≤ 64)
    (hq : PAGE_SIZE PAGE_SHIFT * q < 2 ^ 64) :
    PAGE_SIZE PAGE_SHIFT * q + PAGE_SIZE PAGE_SHIFT ≤ 2 ^ 64 := by
  unfold PAGE_SIZE at *
  have hW : (2 : Nat) ^ 64 = 2 ^ PAGE_SHIFT * 2 ^ (64 - PAGE_SHIFT) := by
    rw [← pow_add]
    congr 1
    omega
  rw [hW] at hq ⊢
  have hq1 : q < 2 ^ (64 - PAGE_SHIFT) := Nat.lt_of_mul_lt_mul_left hq
  calc 2 ^ PAGE_SHIFT * q + 2 ^ PAGE_SHIFT = 2 ^ PAGE_SHIFT * (q + 1) := by ring
    _ ≤ 2 ^ PAGE_SHIFT * 2 ^ (64 - PAGE_SHIFT) := Nat.mul_le_mul_left _ hq1

theorem pages_needed_mul (PAGE_SHIFT q : Nat) (hps : PAGE_SHIFT ≤ 64)
    (hq : PAGE_SIZE PAGE_SHIFT * q < 2 ^ 64) :
    pages_needed PAGE_SHIFT (PAGE_SIZE PAGE_SHIFT * q) = q := by
  have h1 := page_mul_lt PAGE_SHIFT q hps hq
  have hP : 0 < PAGE_SIZE PAGE_SHIFT := by unfold PAGE_SIZE; positivity
  unfold pages_needed
  rw [Nat.mod_eq_of_lt (by omega)]
  have : PAGE_SIZE PAGE_SHIFT * q + PAGE_SIZE PAGE_SHIFT - 1
      = PAGE_SIZE PAGE_SHIFT - 1 + PAGE_SIZE PAGE_SHIFT * q := by omega
  rw [this]
  change _ / PAGE_SIZE PAGE_SHIFT = q
  rw [Nat.add_mul_div_left _ _ hP, Nat.div_eq_of_lt (by omega)]
  simp

theorem pages_needed_mul_le (PAGE_SHIFT size : Nat) :
    PAGE_SIZE PAGE_SHIFT * pages_needed PAGE_SHIFT size < 2 ^ 64 := by
  unfold pages_needed
  change PAGE_SIZE PAGE_SHIFT * (_ / PAGE_SIZE PAGE_SHIFT) < _
  calc _ ≤ (size + PAGE_SIZE PAGE_SHIFT - 1) % 2 ^ 64 := Nat.mul_div_le _ _
    _ < 2 ^ 64 := Nat.mod_lt _ (by norm_num)

theorem fixed_size_of_big (PAGE_SHIFT MAX_ORDER q : Nat) (hps : PAGE_SHIFT ≤ 64)
    (hq : PAGE_SIZE PAGE_SHIFT * q < 2 ^ 64) (hbig : 2 ^ MAX_ORDER ≤ q) :
    fixed_size PAGE_SHIFT MAX_ORDER (PAGE_SIZE PAGE_SHIFT * q) = PAGE_SIZE PAGE_SHIFT * q := by
  unfold fixed_size
  simp only [pages_needed_mul PAGE_SHIFT q hps hq]
  rw [if_neg (by omega), Nat.mod_eq_of_lt hq]

theorem fls_pow_pred (k : Nat) (hk : k ≤ 32) : fls ((2 ^ k + 2 ^ 64 - 1) % 2 ^ 64) = k := by
  have hpos : 0 < 2 ^ k := by positivity
  have h64 : 2 ^ k ≤ 2 ^ 32 := Nat.pow_le_pow_right (by norm_num) hk
  have e : (2 ^ k + 2 ^ 64 - 1) % 2 ^ 64 = 2 ^ k - 1 := by
    have : 2 ^ k + 2 ^ 64 - 1 = (2 ^ k - 1) + 2 ^ 64 := by omega
    rw [this, Nat.add_mod_right, Nat.mod_eq_of_lt (by omega)]
  rw [e]
  apply le_antisymm
  · rw [fls_le_iff, Nat.mod_eq_of_lt (by omega)]
    omega
  · by_contra h
    have h1 : fls (2 ^ k - 1) ≤ k - 1 := by omega
    rw [fls_le_iff, Nat.mod_eq_of_lt (by omega)] at h1
    obtain ⟨j, rfl⟩ : ∃ j, k = j + 1 := ⟨k - 1, by omega⟩
    simp only [Nat.add_sub_cancel] at h1
    have h3 : 2 ^ (j + 1) = 2 ^ j * 2 := pow_succ 2 j
    omega

theorem fixed_size_of_pow (PAGE_SHIFT MAX_ORDER k : Nat) (hfit : PAGE_SHIFT + k < 64)
    (hk : k ≤ MAX_ORDER) (hk32 : k ≤ 32) :
    fixed_size PAGE_SHIFT MAX_ORDER (PAGE_SIZE PAGE_SHIFT * 2 ^ k) = PAGE_SIZE PAGE_SHIFT * 2 ^ k := by
  have hlt : PAGE_SIZE PAGE_SHIFT * 2 ^ k < 2 ^ 64 := by
    unfold PAGE_SIZE
    rw [← pow_add]
    exact Nat.pow_lt_pow_right (by norm_num) hfit
  by_cases hkM : k = MAX_ORDER
  · subst hkM
    exact fixed_size_of_big PAGE_SHIFT k (2 ^ k) (by omega) hlt le_rfl
  · unfold fixed_size
    simp only [pages_needed_mul PAGE_SHIFT (2 ^ k) (by omega) hlt]
    have : 2 ^ k < 2 ^ MAX_ORDER := Nat.pow_lt_pow_right (by norm_num) (by omega)
    rw [if_pos this, fls_pow_pred k hk32, Nat.min_eq_left hk, Nat.mod_eq_of_lt hlt]

/-- C1.  `fixed_size` is idempotent on every byte size, positive or zero, in `size_t`
arithmetic with `PAGE_SIZE = 2 ^ PAGE_SHIFT`, for every configuration in which a block of
`2 ^ min MAX_ORDER 32` pages fits in a `size_t`: every `MAX_ORDER` when `PAGE_SHIFT < 32`. -/
theorem fixed_size_idempotent (PAGE_SHIFT MAX_ORDER size : Nat)
    (hcfg : PAGE_SHIFT + min MAX_ORDER 32 < 64) :
    fixed_size PAGE_SHIFT MAX_ORDER (fixed_size PAGE_SHIFT MAX_ORDER size)
      = fixed_size PAGE_SHIFT MAX_ORDER size := by
  by_cases hlt : pages_needed PAGE_SHIFT size < 2 ^ MAX_ORDER
  · have h32 := fls_le_32 ((pages_needed PAGE_SHIFT size + 2 ^ 64 - 1) % 2 ^ 64)
    have hfit : PAGE_SHIFT
        + min (fls ((pages_needed PAGE_SHIFT size + 2 ^ 64 - 1) % 2 ^ 64)) MAX_ORDER < 64 := by
      omega
    have e : fixed_size PAGE_SHIFT MAX_ORDER size
        = PAGE_SIZE PAGE_SHIFT
          * 2 ^ (min (fls ((pages_needed PAGE_SHIFT size + 2 ^ 64 - 1) % 2 ^ 64)) MAX_ORDER) := by
      unfold fixed_size
      simp only [if_pos hlt]
      apply Nat.mod_eq_of_lt
      unfold PAGE_SIZE
      rw [← pow_add]
      exact Nat.pow_lt_pow_right (by norm_num) hfit
    rw [e]
    exact fixed_size_of_pow PAGE_SHIFT MAX_ORDER _ hfit (Nat.min_le_right _ _)
      (le_trans (Nat.min_le_left _ _) h32)
  · have e : fixed_size PAGE_SHIFT MAX_ORDER size
        = PAGE_SIZE PAGE_SHIFT * pages_needed PAGE_SHIFT size := by
      unfold fixed_size
      simp only [if_neg hlt]
      exact Nat.mod_eq_of_lt (pages_needed_mul_le PAGE_SHIFT size)
    rw [e]
    exact fixed_size_of_big PAGE_SHIFT MAX_ORDER _ (by omega)
      (pages_needed_mul_le PAGE_SHIFT size) (by omega)

theorem fixed_size_idempotent_witness :
    12 + min 10 32 < 64 ∧ fixed_size 12 10 (fixed_size 12 10 5000) = fixed_size 12 10 5000 :=
  ⟨by decide, fixed_size_idempotent 12 10 5000 (by decide)⟩

theorem fls_pred_eq_clog (p : Nat) (hp : 1 ≤ p) (h32 : p ≤ 2 ^ 32) :
    fls ((p + 2 ^ 64 - 1) % 2 ^ 64) = Nat.clog 2 p := by
  have e : (p + 2 ^ 64 - 1) % 2 ^ 64 = p - 1 := by
    have : p + 2 ^ 64 - 1 = (p - 1) + 2 ^ 64 := by omega
    rw [this, Nat.add_mod_right, Nat.mod_eq_of_lt (by omega)]
  rw [e]
  have iff1 : ∀ j, fls (p - 1) ≤ j ↔ Nat.clog 2 p ≤ j := by
    intro j
    rw [fls_le_iff, Nat.mod_eq_of_lt (by omega), ← Nat.le_pow_iff_clog_le (by norm_num)]
    omega
  exact le_antisymm ((iff1 _).2 le_rfl) ((iff1 _).1 le_rfl)

/-- C2. When the page count `p = ceil(size / PAGE_SIZE)` satisfies `1 ≤ p < 2 ^ MAX_ORDER`,
`fixed_size size` is `PAGE_SIZE` times the least power of two that is at least `p`
(`2 ^ Nat.clog 2 p`: it is at least `p`, and no larger than any power of two that is), and
it does not exceed `PAGE_SIZE * 2 ^ MAX_ORDER`.  The configuration is one whose largest block
fits in a `size_t` and whose `MAX_ORDER` fits the 32-bit argument of `fls`. -/
theorem fixed_size_next_power_of_two (PAGE_SHIFT MAX_ORDER size : Nat)
    (hcfg : PAGE_SHIFT + MAX_ORDER < 64) (hmo : MAX_ORDER ≤ 32)
    (h1 : 1 ≤ (size + PAGE_SIZE PAGE_SHIFT - 1) / PAGE_SIZE PAGE_SHIFT)
    (h2 : (size + PAGE_SIZE PAGE_SHIFT - 1) / PAGE_SIZE PAGE_SHIFT < 2 ^ MAX_ORDER) :
    fixed_size PAGE_SHIFT MAX_ORDER size
        = PAGE_SIZE PAGE_SHIFT
          * 2 ^ Nat.clog 2 ((size + PAGE_SIZE PAGE_SHIFT - 1) / PAGE_SIZE PAGE_SHIFT)
      ∧ (size + PAGE_SIZE PAGE_SHIFT - 1) / PAGE_SIZE PAGE_SHIFT
          ≤ 2 ^ Nat.clog 2 ((size + PAGE_SIZE PAGE_SHIFT - 1) / PAGE_SIZE PAGE_SHIFT)
      ∧ (∀ j, (size + PAGE_SIZE PAGE_SHIFT - 1) / PAGE_SIZE PAGE_SHIFT ≤ 2 ^ j →
          2 ^ Nat.clog 2 ((size + PAGE_SIZE PAGE_SHIFT - 1) / PAGE_SIZE PAGE_SHIFT) ≤ 2 ^ j)
      ∧ fixed_size PAGE_SHIFT MAX_ORDER size ≤ PAGE_SIZE PAGE_SHIFT * 2 ^ MAX_ORDER := by
  set p := (size + PAGE_SIZE PAGE_SHIFT - 1) / PAGE_SIZE PAGE_SHIFT with hp
  have hP : 0 < PAGE_SIZE PAGE_SHIFT := by unfold PAGE_SIZE; positivity
  have hPM : PAGE_SIZE PAGE_SHIFT * 2 ^ MAX_ORDER < 2 ^ 64 := by
    unfold PAGE_SIZE
    rw [← pow_add]
    exact Nat.pow_lt_pow_right (by norm_num) hcfg
  have hM32 : 2 ^ MAX_ORDER ≤ 2 ^ 32 := Nat.pow_le_pow_right (by norm_num) hmo
  have hnowrap : size + PAGE_SIZE PAGE_SHIFT - 1 < 2 ^ 64 := by
    have := (Nat.div_lt_iff_lt_mul hP).1 h2
    rw [Nat.mul_comm] at this
    omega
  have hpn : pages_needed PAGE_SHIFT size = p := by
    unfold pages_needed
    rw [Nat.mod_eq_of_lt hnowrap]
    rfl
  have hclogM : Nat.clog 2 p ≤ MAX_ORDER :=
    (Nat.le_pow_iff_clog_le (by norm_num)).1 (le_of_lt h2)
  have hval : fixed_size PAGE_SHIFT MAX_ORDER size = PAGE_SIZE PAGE_SHIFT * 2 ^ Nat.clog 2 p := by
    unfold fixed_size
    simp only [hpn, if_pos h2]
    rw [fls_pred_eq_clog p h1 (by omega), Nat.min_eq_left hclogM]
    apply Nat.mod_eq_of_lt
    calc PAGE_SIZE PAGE_SHIFT * 2 ^ Nat.clog 2 p
        ≤ PAGE_SIZE PAGE_SHIFT * 2 ^ MAX_ORDER :=
          Nat.mul_le_mul_left _ (Nat.pow_le_pow_right (by norm_num) hclogM)
      _ < 2 ^ 64 := hPM
  refine ⟨hval, (Nat.le_pow_iff_clog_le (by norm_num)).2 le_rfl, ?_, ?_⟩
  · intro j hj
    exact Nat.pow_le_pow_right (by norm_num) ((Nat.le_pow_iff_clog_le (by norm_num)).1 hj)
  · rw [hval]
    exact Nat.mul_le_mul_left _ (Nat.pow_le_pow_right (by norm_num) hclogM)

theorem fixed_size_next_power_of_two_witness :
    fixed_size 12 10 (3 * 4096 + 1) = PAGE_SIZE 12 * 2 ^ Nat.clog 2 4
      ∧ fixed_size 12 10 (3 * 4096 + 1) ≤ PAGE_SIZE 12 * 2 ^ 10 := by
  have h := fixed_size_next_power_of_two 12 10 (3 * 4096 + 1) (by decide) (by decide)
    (by decide) (by decide)
  have e : (3 * 4096 + 1 + PAGE_SIZE 12 - 1) / PAGE_SIZE 12 = 4 := by decide
  rw [e] at h
  exact ⟨h.1, h.2.2.2⟩

/-- C3. A request for 0 bytes is not rounded to one page: with 4 KiB pages and
`MAX_ORDER = 10` the code returns `PAGE_SIZE << MAX_ORDER`, the largest size class. -/
theorem fixed_size_zero_is_largest_class :
    fixed_size 12 10 0 = PAGE_SIZE 12 * 2 ^ 10 ∧ fixed_size 12 10 0 ≠ PAGE_SIZE 12 := by
  decide

/-- For every usual configuration the 0-byte request yields the largest size class:
`pages_needed - 1` wraps to the all-ones word, whose `fls` is 32. -/
theorem fixed_size_zero (PAGE_SHIFT MAX_ORDER : Nat) (hcfg : PAGE_SHIFT + MAX_ORDER < 64)
    (hmo : MAX_ORDER ≤ 32) :
    fixed_size PAGE_SHIFT MAX_ORDER 0 = PAGE_SIZE PAGE_SHIFT * 2 ^ MAX_ORDER := by
  have hP : 0 < PAGE_SIZE PAGE_SHIFT := by unfold PAGE_SIZE; positivity
  have hPW : PAGE_SIZE PAGE_SHIFT < 2 ^ 64 := by
    unfold PAGE_SIZE
    exact Nat.pow_lt_pow_right (by norm_num) (by omega)
  have hpn : pages_needed PAGE_SHIFT 0 = 0 := by
    unfold pages_needed
    rw [Nat.mod_eq_of_lt (by omega)]
    change _ / PAGE_SIZE PAGE_SHIFT = 0
    exact Nat.div_eq_of_lt (by omega)
  have hfls : fls ((0 + 2 ^ 64 - 1) % 2 ^ 64) = 32 := by decide
  unfold fixed_size
  simp only [hpn]
  rw [if_pos (by positivity), hfls, Nat.min_eq_right hmo]
  apply Nat.mod_eq_of_lt
  unfold PAGE_SIZE
  rw [← pow_add]
  exact Nat.pow_lt_pow_right (by norm_num) hcfg

theorem fixed_size_zero_witness : fixed_size 12 10 0 = PAGE_SIZE 12 * 2 ^ 10 :=
  fixed_size_zero 12 10 (by decide) (by decide)

/-! ## Facts about `alloc_blocks` -/

theorem alloc_retry_events (host : Host) (order : Nat) (page : Option Page) (log : List Event) :
    ∃ evs, (alloc_retry host order page log).2.2 = log ++ evs
      ∧ (∀ e ∈ evs, ∃ k r, e = Event.alloc_pages k r)
      ∧ (∀ k pg, Event.alloc_pages k (some pg) ∈ evs →
          (alloc_retry host order page log).1 = k
            ∧ (alloc_retry host order page log).2.1 = some pg) := by
  induction order generalizing page log with
  | zero => exact ⟨[], by simp [alloc_retry]⟩
  | succ n ih =>
    cases hres : host.alloc_pages log (n + 1) with
    | some pg =>
      refine ⟨[Event.alloc_pages (n + 1) (some pg)], ?_, ?_, ?_⟩
      · simp [alloc_retry, hres]
      · intro e he
        exact ⟨n + 1, some pg, by simpa using he⟩
      · intro k pg1 hmem
        simp only [List.mem_singleton, Event.alloc_pages.injEq, Option.some.injEq] at hmem
        simp [alloc_retry, hres, hmem.1, hmem.2]
    | none =>
      obtain ⟨evs, h1, h2, h3⟩ := ih none (log ++ [Event.alloc_pages (n + 1) none])
      have hstep : alloc_retry host (n + 1) page log
          = alloc_retry host n none (log ++ [Event.alloc_pages (n + 1) none]) := by
        simp [alloc_retry, hres]
      refine ⟨Event.alloc_pages (n + 1) none :: evs, ?_, ?_, ?_⟩
      · rw [hstep, h1]
        simp
      · intro e he
        rcases List.mem_cons.1 he with rfl | he
        · exact ⟨n + 1, none, rfl⟩
        · exact h2 e he
      · intro k pg hmem
        rw [hstep]
        rcases List.mem_cons.1 hmem with heq | hmem
        · simp at heq
        · exact h3 k pg hmem

theorem alloc_loop_step (host : Host) (MAX_ORDER fuel pn : Nat) (blocks : List mem_block)
    (log : List Event) (order : Nat) (page : Option Page) (log1 : List Event)
    (hretry : alloc_retry host (first_order MAX_ORDER (pn + 1)) (host.uninit_page log) log
      = (order, page, log1)) :
    alloc_loop host MAX_ORDER (fuel + 1) (pn + 1) blocks log
      = match page with
        | none => some (-ENOMEM, blocks, log1)
        | some pg =>
          if host.kmalloc log1 then
            alloc_loop host MAX_ORDER fuel (if pn + 1 > 2 ^ order then pn + 1 - 2 ^ order else 0)
              (blocks ++ [⟨pg, order, host.uninit_extra log1⟩]) (log1 ++ [Event.kmalloc true])
          else some (-ENOMEM, blocks, log1 ++ [Event.kmalloc false, Event.free_pages pg order]) := by
  cases page with
  | none => simp [alloc_loop, hretry]
  | some pg => simp [alloc_loop, hretry]

theorem alloc_loop_total (host : Host) (MAX_ORDER fuel pn : Nat) (blocks : List mem_block)
    (log : List Event) (hfuel : pn ≤ fuel) :
    ∃ res, alloc_loop host MAX_ORDER fuel pn blocks log = some res := by
  induction fuel generalizing pn blocks log with
  | zero =>
    have : pn = 0 := by omega
    subst this
    exact ⟨(0, blocks, log), by simp [alloc_loop]⟩
  | succ fuel ih =>
    cases pn with
    | zero => exact ⟨(0, blocks, log), by simp [alloc_loop]⟩
    | succ pn =>
      rcases hretry : alloc_retry host (first_order MAX_ORDER (pn + 1)) (host.uninit_page log) log
        with ⟨order, page, log1⟩
      rw [alloc_loop_step host MAX_ORDER fuel pn blocks log order page log1 hretry]
      cases page with
      | none => exact ⟨_, rfl⟩
      | some pg =>
        by_cases hk : host.kmalloc log1 = true
        · simp only [hk, if_true]
          apply ih
          have : 0 < 2 ^ order := by positivity
          split_ifs <;> omega
        · simp only [hk]
          exact ⟨_, rfl⟩

/-- The outer loop of `alloc_blocks` ends within `pages_needed` rounds: the function
always returns. -/
theorem alloc_blocks_total (host : Host) (PAGE_SHIFT MAX_ORDER : Nat) (region : mem_region)
    (size : Nat) (log : List Event) :
    ∃ res, alloc_blocks host PAGE_SHIFT MAX_ORDER region size log = some res := by
  obtain ⟨⟨ret, blocks, log1⟩, h⟩ := alloc_loop_total host MAX_ORDER
    (pages_needed PAGE_SHIFT size) (pages_needed PAGE_SHIFT size) region.blocks log le_rfl
  exact ⟨(ret, { region with blocks := blocks }, log1), by simp [alloc_blocks, h]⟩

theorem alloc_loop_cover (host : Host) (MAX_ORDER fuel pn : Nat) (blocks : List mem_block)
    (log : List Event) (blocks1 : List mem_block) (log1 : List Event)
    (h : alloc_loop host MAX_ORDER fuel pn blocks log = some (0, blocks1, log1)) :
    ∃ new, blocks1 = blocks ++ new ∧ pn ≤ (new.map (fun b => 2 ^ b.order)).sum := by
  induction fuel generalizing pn blocks log with
  | zero =>
    cases pn with
    | zero =>
      simp [alloc_loop] at h
      exact ⟨[], by simp [h.1]⟩
    | succ pn => simp [alloc_loop] at h
  | succ fuel ih =>
    cases pn with
    | zero =>
      simp [alloc_loop] at h
      exact ⟨[], by simp [h.1]⟩
    | succ pn =>
      rcases hretry : alloc_retry host (first_order MAX_ORDER (pn + 1)) (host.uninit_page log) log
        with ⟨order, page, log2⟩
      rw [alloc_loop_step host MAX_ORDER fuel pn blocks log order page log2 hretry] at h
      cases page with
      | none => simp [ENOMEM] at h
      | some pg =>
        by_cases hk : host.kmalloc log2 = true
        · simp only [hk, if_true] at h
          obtain ⟨new, hnew, hsum⟩ := ih _ _ _ h
          refine ⟨⟨pg, order, host.uninit_extra log2⟩ :: new, by simp [hnew], ?_⟩
          simp only [List.map_cons, List.sum_cons]
          split_ifs at hsum <;> omega
        · simp [hk, ENOMEM] at h

theorem fixed_size_multiple (PAGE_SHIFT MAX_ORDER size : Nat) (hps : PAGE_SHIFT ≤ 64) :
    ∃ q, fixed_size PAGE_SHIFT MAX_ORDER size = PAGE_SIZE PAGE_SHIFT * q
      ∧ PAGE_SIZE PAGE_SHIFT * q < 2 ^ 64 := by
  have hW : (2 : Nat) ^ 64 = PAGE_SIZE PAGE_SHIFT * 2 ^ (64 - PAGE_SHIFT) := by
    unfold PAGE_SIZE
    rw [← pow_add]
    congr 1
    omega
  obtain ⟨q0, hq0⟩ : ∃ q0, fixed_size PAGE_SHIFT MAX_ORDER size
      = (PAGE_SIZE PAGE_SHIFT * q0) % 2 ^ 64 := ⟨_, rfl⟩
  refine ⟨q0 % 2 ^ (64 - PAGE_SHIFT), ?_, ?_⟩
  · rw [hq0]
    nth_rewrite 1 [hW]
    rw [Nat.mul_mod_mul_left]
  · rw [← Nat.mul_mod_mul_left, ← hW]
    exact Nat.mod_lt _ (by norm_num)

/-- C6. Coverage.  Whenever `alloc_blocks(region, fixed_size(size))` returns success, for
any host behaviour and any byte size, the region's list afterwards is the list before
followed by the blocks appended by the call, and the sum of `2 ^ order` over the appended
blocks is at least `ceil(fixed_size(size) / PAGE_SIZE)`.  On an initially empty region the
appended blocks are the whole list. -/
theorem alloc_blocks_coverage (host : Host) (PAGE_SHIFT MAX_ORDER : Nat) (region : mem_region)
    (size : Nat) (log : List Event) (region1 : mem_region) (log1 : List Event)
    (hps : PAGE_SHIFT < 64)
    (h : alloc_blocks host PAGE_SHIFT MAX_ORDER region (fixed_size PAGE_SHIFT MAX_ORDER size) log
      = some (0, region1, log1)) :
    ∃ new, region1.blocks = region.blocks ++ new
      ∧ (fixed_size PAGE_SHIFT MAX_ORDER size + PAGE_SIZE PAGE_SHIFT - 1) / PAGE_SIZE PAGE_SHIFT
          ≤ (new.map (fun b => 2 ^ b.order)).sum := by
  obtain ⟨q, hq, hlt⟩ := fixed_size_multiple PAGE_SHIFT MAX_ORDER size (le_of_lt hps)
  have hpn : pages_needed PAGE_SHIFT (fixed_size PAGE_SHIFT MAX_ORDER size) = q := by
    rw [hq]
    exact pages_needed_mul PAGE_SHIFT q (le_of_lt hps) hlt
  have hceil : (fixed_size PAGE_SHIFT MAX_ORDER size + PAGE_SIZE PAGE_SHIFT - 1)
      / PAGE_SIZE PAGE_SHIFT = q := by
    have h1 := page_mul_lt PAGE_SHIFT q (le_of_lt hps) hlt
    have h2 := hpn
    unfold pages_needed at h2
    rw [Nat.mod_eq_of_lt (by rw [hq]; unfold PAGE_SIZE at *; omega)] at h2
    exact h2
  rw [hceil]
  unfold alloc_blocks at h
  simp only [hpn] at h
  obtain ⟨⟨ret, blocks, log2⟩, hloop⟩ :=
    alloc_loop_total host MAX_ORDER q q region.blocks log le_rfl
  rw [hloop] at h
  simp only [Option.some.injEq, Prod.mk.injEq] at h
  obtain ⟨hret, hreg, _⟩ := h
  subst hret
  obtain ⟨new, hnew, hsum⟩ := alloc_loop_cover host MAX_ORDER q q region.blocks log blocks log2 hloop
  refine ⟨new, ?_, hsum⟩
  rw [← hreg]
  exact hnew

theorem alloc_blocks_coverage_witness :
    ∃ new, (⟨[⟨1024, 1, none⟩], 8192⟩ : mem_region).blocks = ([] : List mem_block) ++ new
      ∧ (fixed_size 12 10 5000 + PAGE_SIZE 12 - 1) / PAGE_SIZE 12
          ≤ (new.map (fun b => 2 ^ b.order)).sum :=
  alloc_blocks_coverage host_plenty 12 10 ⟨[], 8192⟩ 5000 [] ⟨[⟨1024, 1, none⟩], 8192⟩
    [Event.alloc_pages 1 (some 1024), Event.kmalloc true] (by decide) (by decide)

theorem alloc_loop_enomem (host : Host) (MAX_ORDER fuel pn : Nat) (blocks : List mem_block)
    (log : List Event) (blocks1 : List mem_block) (log1 : List Event)
    (h : alloc_loop host MAX_ORDER fuel pn blocks log = some (-ENOMEM, blocks1, log1)) :
    ∃ new evs, blocks1 = blocks ++ new ∧ log1 = log ++ evs
      ∧ (∀ k pg, Event.alloc_pages k (some pg) ∈ evs →
          (∃ b ∈ new, b.page = pg ∧ b.order = k) ∨ Event.free_pages pg k ∈ evs)
      ∧ ((∀ pg k, Event.free_pages pg k ∉ evs)
          ∨ ∃ pre pg k, evs = pre ++ [Event.kmalloc false, Event.free_pages pg k]
              ∧ ∀ pg1 k1, Event.free_pages pg1 k1 ∉ pre) := by
  induction fuel generalizing pn blocks log with
  | zero =>
    cases pn with
    | zero => simp [alloc_loop, ENOMEM] at h
    | succ pn => simp [alloc_loop] at h
  | succ fuel ih =>
    cases pn with
    | zero => simp [alloc_loop, ENOMEM] at h
    | succ pn =>
      rcases hretry : alloc_retry host (first_order MAX_ORDER (pn + 1)) (host.uninit_page log) log
        with ⟨order, page, log2⟩
      obtain ⟨evs1, hlog2, hallocs, hgrant⟩ := alloc_retry_events host
        (first_order MAX_ORDER (pn + 1)) (host.uninit_page log) log
      rw [hretry] at hlog2 hgrant
      simp only at hlog2 hgrant
      have hnofree : ∀ pg k, Event.free_pages pg k ∉ evs1 := by
        intro pg k hmem
        obtain ⟨k1, r, he⟩ := hallocs _ hmem
        simp at he
      rw [alloc_loop_step host MAX_ORDER fuel pn blocks log order page log2 hretry] at h
      cases page with
      | none =>
        simp only [Option.some.injEq, Prod.mk.injEq, true_and] at h
        refine ⟨[], evs1, by simp [h.1], by rw [← h.2, hlog2], ?_, Or.inl hnofree⟩
        intro k pg hmem
        have := (hgrant k pg hmem).2
        simp at this
      | some pg =>
        by_cases hk : host.kmalloc log2 = true
        · simp only [hk, if_true] at h
          obtain ⟨new, evs, hb, hl, hcov, hfree⟩ := ih _ _ _ h
          refine ⟨⟨pg, order, host.uninit_extra log2⟩ :: new,
            evs1 ++ [Event.kmalloc true] ++ evs, by simp [hb], by simp [hl, hlog2], ?_, ?_⟩
          · intro k pg1 hmem
            simp only [List.mem_append, List.mem_singleton] at hmem
            rcases hmem with (hmem | hmem) | hmem
            · obtain ⟨h1, h2⟩ := hgrant k pg1 hmem
              simp only [Option.some.injEq] at h2
              exact Or.inl ⟨⟨pg, order, host.uninit_extra log2⟩, by simp, h2, h1⟩
            · simp at hmem
            · rcases hcov k pg1 hmem with ⟨b, hbm, hb1, hb2⟩ | hfr
              · exact Or.inl ⟨b, List.mem_cons_of_mem _ hbm, hb1, hb2⟩
              · exact Or.inr (by simp [hfr])
          · rcases hfree with hno | ⟨pre, pg1, k1, hpre, hnopre⟩
            · left
              intro pg1 k1 hmem
              simp only [List.mem_append, List.mem_singleton] at hmem
              rcases hmem with (hmem | hmem) | hmem
              · exact hnofree _ _ hmem
              · simp at hmem
              · exact hno _ _ hmem
            · right
              refine ⟨evs1 ++ [Event.kmalloc true] ++ pre, pg1, k1, by simp [hpre], ?_⟩
              intro pg2 k2 hmem
              simp only [List.mem_append, List.mem_singleton] at hmem
              rcases hmem with (hmem | hmem) | hmem
              · exact hnofree _ _ hmem
              · simp at hmem
              · exact hnopre _ _ hmem
        · simp only [hk, Bool.false_eq_true, if_false, Option.some.injEq, Prod.mk.injEq,
            true_and] at h
          refine ⟨[], evs1 ++ [Event.kmalloc false, Event.free_pages pg order], by simp [h.1],
            by rw [← h.2, hlog2]; simp, ?_, Or.inr ⟨evs1, pg, order, rfl, hnofree⟩⟩
          intro k pg1 hmem
          simp only [List.mem_append, List.mem_cons, List.mem_singleton, List.not_mem_nil,
            or_false] at hmem
          rcases hmem with hmem | hmem | hmem
          · obtain ⟨h1, h2⟩ := hgrant k pg1 hmem
            simp only [Option.some.injEq] at h2
            right
            simp [h1, h2]
          · simp at hmem
          · simp at hmem

/-- C5, as the code has it.  When `alloc_blocks` returns `-ENOMEM`: the region's block list
is the list before the call followed by the blocks the call appended, so nothing is removed
and what was appended before the failure is still on the list, and the size field is
unchanged; every page run the host granted during the call, at the order it was granted,
is the base run of an appended block or was passed to `__free_pages` during the call; and
the call makes either no `__free_pages` call, or exactly one, as its very last host call,
directly after a refused `kmalloc`. -/
theorem alloc_blocks_enomem_keeps_blocks (host : Host) (PAGE_SHIFT MAX_ORDER : Nat)
    (region : mem_region) (size : Nat) (log : List Event) (region1 : mem_region)
    (log1 : List Event)
    (h : alloc_blocks host PAGE_SHIFT MAX_ORDER region size log = some (-ENOMEM, region1, log1)) :
    ∃ new evs, region1.blocks = region.blocks ++ new ∧ region1.size = region.size
      ∧ log1 = log ++ evs
      ∧ (∀ k pg, Event.alloc_pages k (some pg) ∈ evs →
          (∃ b ∈ new, b.page = pg ∧ b.order = k) ∨ Event.free_pages pg k ∈ evs)
      ∧ ((∀ pg k, Event.free_pages pg k ∉ evs)
          ∨ ∃ pre pg k, evs = pre ++ [Event.kmalloc false, Event.free_pages pg k]
              ∧ ∀ pg1 k1, Event.free_pages pg1 k1 ∉ pre) := by
  unfold alloc_blocks at h
  obtain ⟨⟨ret, blocks, log2⟩, hloop⟩ := alloc_loop_total host MAX_ORDER
    (pages_needed PAGE_SHIFT size) (pages_needed PAGE_SHIFT size) region.blocks log le_rfl
  simp only [hloop, Option.some.injEq, Prod.mk.injEq] at h
  obtain ⟨hret, hreg, hlog⟩ := h
  subst hret hlog
  obtain ⟨new, evs, hb, hl, hcov, hfree⟩ := alloc_loop_enomem host MAX_ORDER _ _ _ _ _ _ hloop
  refine ⟨new, evs, ?_, ?_, hl, hcov, hfree⟩
  · rw [← hreg]
    exact hb
  · rw [← hreg]

theorem alloc_blocks_enomem_keeps_blocks_witness :
    ∃ new evs, (⟨[⟨4096, 2, none⟩], 32768⟩ : mem_region).blocks
        = (⟨[], 32768⟩ : mem_region).blocks ++ new
      ∧ (⟨[⟨4096, 2, none⟩], 32768⟩ : mem_region).size = (⟨[], 32768⟩ : mem_region).size
      ∧ [Event.alloc_pages 3 none, Event.alloc_pages 2 (some 4096), Event.kmalloc true,
          Event.alloc_pages 2 none, Event.alloc_pages 1 none] = [] ++ evs
      ∧ (∀ k pg, Event.alloc_pages k (some pg) ∈ evs →
          (∃ b ∈ new, b.page = pg ∧ b.order = k) ∨ Event.free_pages pg k ∈ evs)
      ∧ ((∀ pg k, Event.free_pages pg k ∉ evs)
          ∨ ∃ pre pg k, evs = pre ++ [Event.kmalloc false, Event.free_pages pg k]
              ∧ ∀ pg1 k1, Event.free_pages pg1 k1 ∉ pre) :=
  alloc_blocks_enomem_keeps_blocks host_second_only 12 10 ⟨[], 32768⟩ 32768 []
    ⟨[⟨4096, 2, none⟩], 32768⟩
    [Event.alloc_pages 3 none, Event.alloc_pages 2 (some 4096), Event.kmalloc true,
      Event.alloc_pages 2 none, Event.alloc_pages 1 none] (by decide)

/-- C5 as stated fails.  The host refuses order 3, grants an order-2 run (page 4096) and
then refuses everything: `alloc_blocks` for 8 pages returns `-ENOMEM`, the block it built is
still on the region's list, and no page was released. -/
theorem alloc_blocks_enomem_not_atomic :
    ∃ region1 log1,
      alloc_blocks host_second_only 12 10 ⟨[], 32768⟩ 32768 [] = some (-ENOMEM, region1, log1)
        ∧ region1.blocks = [⟨4096, 2, none⟩]
        ∧ region1.blocks ≠ (⟨[], 32768⟩ : mem_region).blocks
        ∧ Event.alloc_pages 2 (some 4096) ∈ log1
        ∧ ∀ pg k, Event.free_pages pg k ∉ log1 := by
  refine ⟨⟨[⟨4096, 2, none⟩], 32768⟩,
    [Event.alloc_pages 3 none, Event.alloc_pages 2 (some 4096), Event.kmalloc true,
      Event.alloc_pages 2 none, Event.alloc_pages 1 none], by decide, rfl, by decide,
    by decide, ?_⟩
  intro pg k
  simp

/-- The other way to `-ENOMEM`: the host grants the order-1 run for a 2-page request and
`kmalloc` refuses the node; the run is handed back and nothing is appended. -/
theorem alloc_blocks_kmalloc_refused :
    alloc_blocks host_no_slab 12 10 ⟨[], 8192⟩ 8192 []
      = some (-ENOMEM, ⟨[], 8192⟩,
          [Event.alloc_pages 1 (some 1024), Event.kmalloc false, Event.free_pages 1024 1]) := by
  decide

theorem alloc_retry_never_order_zero (host : Host) (order : Nat) (page : Option Page)
    (log : List Event) :
    ∃ evs, (alloc_retry host order page log).2.2 = log ++ evs
      ∧ ∀ r, Event.alloc_pages 0 r ∉ evs := by
  induction order generalizing page log with
  | zero => exact ⟨[], by simp [alloc_retry]⟩
  | succ n ih =>
    cases hres : host.alloc_pages log (n + 1) with
    | some pg =>
      exact ⟨[Event.alloc_pages (n + 1) (some pg)], by simp [alloc_retry, hres], by simp⟩
    | none =>
      obtain ⟨evs, h1, h2⟩ := ih none (log ++ [Event.alloc_pages (n + 1) none])
      refine ⟨Event.alloc_pages (n + 1) none :: evs, ?_, ?_⟩
      · simp [alloc_retry, hres, h1]
      · intro r hmem
        rcases List.mem_cons.1 hmem with heq | hmem
        · simp at heq
        · exact h2 r hmem

/-- C4.  The retry loop stops before order 0 is tried.  For a 2-page request the host
refuses the order-1 run; the code asks for nothing else and returns `-ENOMEM`, although
the host would have granted a single page (page 7) at that point.  For a 1-page request the
loop makes no call at all and the block is built from whatever `page` held: here the stale
value 99, which the host never returned. -/
theorem alloc_blocks_skips_order_zero :
    alloc_blocks host_single_only 12 10 ⟨[], 8192⟩ 8192 []
        = some (-ENOMEM, ⟨[], 8192⟩, [Event.alloc_pages 1 none])
      ∧ host_single_only.alloc_pages [Event.alloc_pages 1 none] 0 = some 7
      ∧ alloc_blocks host_stale 12 10 ⟨[], 4096⟩ 4096 []
        = some (0, ⟨[⟨99, 0, none⟩], 4096⟩, [Event.kmalloc true]) := by
  decide

/-! ## Facts about `mem_mmap` -/

/-- C7.  The extra page is mapped without checking that it was obtained.  The host grants
the order-2 run for a 4-page region (page 512) and has no page left afterwards; every
mapping call succeeds.  `mem_mmap` returns 0, the block's `extra` is `NULL`, and the last
page slot of the span (address `65536 + 3 * 4096`) is mapped to `page_to_pfn(NULL)`, not to
a freshly allocated page. -/
theorem mem_mmap_maps_missing_extra_page :
    mem_mmap host_first_only 12 10 ⟨[], 16384⟩ 65536 []
      = some (0, ⟨[⟨512, 2, none⟩], 16384⟩,
          [Event.alloc_pages 2 (some 512), Event.kmalloc true,
           Event.remap_pfn_range 65536 512 12288 0,
           Event.alloc_pages 0 none,
           Event.remap_pfn_range 77824 host_first_only.null_pfn 4096 0]) := by
  decide

/-- When `mmap_loop` returns 0 and the mapped span stays inside the address space, the
calls it made are exactly those of the layout rule, in order, and the blocks keep their
base run and order.  The page mapped at the last slot is whatever the allocation returned,
`page_to_pfn(NULL)` included: the code does not check it. -/
theorem mmap_loop_layout (host : Host) (PAGE_SHIFT : Nat) (blocks : List mem_block)
    (addr : Nat) (log : List Event) (blocks1 : List mem_block) (log1 : List Event)
    (hfit : addr + (blocks.map (fun b => 2 ^ b.order * PAGE_SIZE PAGE_SHIFT)).sum < 2 ^ 64)
    (h : mmap_loop host PAGE_SHIFT blocks addr log = (0, blocks1, log1)) :
    log1 = log ++ layout_events host PAGE_SHIFT blocks1 addr
      ∧ blocks1.map (fun b => (b.page, b.order)) = blocks.map (fun b => (b.page, b.order)) := by
  induction blocks generalizing addr log blocks1 log1 with
  | nil =>
    simp only [mmap_loop, Prod.mk.injEq, true_and] at h
    obtain ⟨h1, h2⟩ := h
    subst h1 h2
    simp [layout_events]
  | cons b rest ih =>
    have hP : 0 < PAGE_SIZE PAGE_SHIFT := by unfold PAGE_SIZE; positivity
    have hpow : 0 < 2 ^ b.order := by positivity
    simp only [List.map_cons, List.sum_cons] at hfit
    have hge : PAGE_SIZE PAGE_SHIFT ≤ 2 ^ b.order * PAGE_SIZE PAGE_SHIFT :=
      Nat.le_mul_of_pos_left _ hpow
    have hbs : (PAGE_SIZE PAGE_SHIFT * 2 ^ b.order) % 2 ^ 64
        = 2 ^ b.order * PAGE_SIZE PAGE_SHIFT := by
      rw [Nat.mul_comm, Nat.mod_eq_of_lt (by omega)]
    have hsub : (2 ^ b.order - 1) * PAGE_SIZE PAGE_SHIFT
        = 2 ^ b.order * PAGE_SIZE PAGE_SHIFT - PAGE_SIZE PAGE_SHIFT := by
      rw [Nat.sub_mul, Nat.one_mul]
    have hlen : (2 ^ b.order * PAGE_SIZE PAGE_SHIFT + 2 ^ 64 - PAGE_SIZE PAGE_SHIFT) % 2 ^ 64
        = (2 ^ b.order - 1) * PAGE_SIZE PAGE_SHIFT := by
      have : 2 ^ b.order * PAGE_SIZE PAGE_SHIFT + 2 ^ 64 - PAGE_SIZE PAGE_SHIFT
          = (2 ^ b.order * PAGE_SIZE PAGE_SHIFT - PAGE_SIZE PAGE_SHIFT) + 2 ^ 64 := by omega
      rw [this, Nat.add_mod_right, Nat.mod_eq_of_lt (by omega), hsub]
    have haddr2 : (addr + 2 ^ b.order * PAGE_SIZE PAGE_SHIFT + 2 ^ 64 - PAGE_SIZE PAGE_SHIFT)
        % 2 ^ 64 = addr + (2 ^ b.order - 1) * PAGE_SIZE PAGE_SHIFT := by
      have : addr + 2 ^ b.order * PAGE_SIZE PAGE_SHIFT + 2 ^ 64 - PAGE_SIZE PAGE_SHIFT
          = (addr + (2 ^ b.order * PAGE_SIZE PAGE_SHIFT - PAGE_SIZE PAGE_SHIFT)) + 2 ^ 64 := by
        omega
      rw [this, Nat.add_mod_right, Nat.mod_eq_of_lt (by omega), hsub]
    have hnext : (addr + 2 ^ b.order * PAGE_SIZE PAGE_SHIFT) % 2 ^ 64
        = addr + 2 ^ b.order * PAGE_SIZE PAGE_SHIFT := Nat.mod_eq_of_lt (by omega)
    unfold mmap_loop at h
    simp only [hbs, hlen, haddr2, hnext] at h
    split_ifs at h with hr1 hr2
    · simp only [Prod.mk.injEq] at h
      exact absurd h.1 hr1
    · simp only [Prod.mk.injEq] at h
      exact absurd h.1 hr2
    · simp only [ne_eq, not_not] at hr1 hr2
      simp only [hr1] at hr2 h
      simp only [hr2] at h
      simp only [Prod.mk.injEq] at h
      obtain ⟨hr, hb1, hl4⟩ := h
      obtain ⟨ih1, ih2⟩ := ih _ _ _ _ (by omega) (Prod.ext hr rfl)
      subst hb1 hl4
      refine ⟨?_, ?_⟩
      · rw [ih1]
        simp [layout_events]
      · rw [List.map_cons, List.map_cons, ih2]

theorem mmap_loop_layout_witness :
    [Event.remap_pfn_range 65536 512 12288 0, Event.alloc_pages 0 (some 2048),
        Event.remap_pfn_range 77824 2048 4096 0]
      = [] ++ layout_events host_plenty 12 [⟨512, 2, some 2048⟩] 65536
      ∧ ([⟨512, 2, some 2048⟩] : List mem_block).map (fun b => (b.page, b.order))
        = ([⟨512, 2, none⟩] : List mem_block).map (fun b => (b.page, b.order)) :=
  mmap_loop_layout host_plenty 12 [⟨512, 2, none⟩] 65536 [] [⟨512, 2, some 2048⟩]
    [Event.remap_pfn_range 65536 512 12288 0, Event.alloc_pages 0 (some 2048),
      Event.remap_pfn_range 77824 2048 4096 0] (by decide) (by decide)

/-! ## Facts about `free_region` -/

theorem free_loop_eq (blocks : List mem_block) (log : List Event) :
    free_loop blocks log = ([], log ++ blocks.flatMap block_frees) := by
  induction blocks generalizing log with
  | nil => simp [free_loop]
  | cons b rest ih =>
    cases he : b.extra with
    | none => simp [free_loop, ih, block_frees, he]
    | some e => simp [free_loop, ih, block_frees, he]

/-- C8.  Release is exhaustive and single-shot.  For every region, `free_region` hands to
the host exactly, block by block in list order, the base run with the block's order, the
extra page when it is not `NULL`, and the node; it leaves the block list empty.  Run again
on the region it left, `free_region` makes no call at all, and a second `mem_release` makes
none but the `kfree` of the region, so no page is freed a second time. -/
theorem free_region_exhaustive (region : mem_region) (log : List Event) :
    (free_region region log).1.blocks = []
      ∧ (free_region region log).2 = log ++ region.blocks.flatMap block_frees
      ∧ free_region (free_region region log).1 (free_region region log).2
          = free_region region log
      ∧ (mem_release region log).2.2
          = log ++ region.blocks.flatMap block_frees ++ [Event.kfree_region]
      ∧ (mem_release (mem_release region log).2.1 (mem_release region log).2.2).2.2
          = (mem_release region log).2.2 ++ [Event.kfree_region] := by
  simp [free_region, mem_release, free_loop_eq]

/-! ## Facts about the scratch stack -/

/-- C9.  The capacity check of `vs_store` compares each push with the full capacity, which
is never reduced.  On a stack of 96 bytes at address 4096 (capacity 16, data area from
4176 to 4192) a push of 16 bytes fills the stack; the following push of 8 bytes is accepted
all the same: it returns 4168 and moves the stack pointer to 4168, below the end of the
header at 4176. -/
theorem vs_store_exceeds_capacity :
    vs_create 4096 96 = some ⟨4096, 16, 4192⟩
      ∧ vs_store_all ⟨4096, 16, 4192⟩ [(8192, fun _ => 1, 16), (8192, fun _ => 1, 8)]
          = ([4176, 4168], ⟨4096, 16, 4168⟩)
      ∧ vs_bp ⟨4096, 16, 4168⟩ = 4176
      ∧ (4168 : Nat) < vs_bp ⟨4096, 16, 4168⟩ := by
  decide

/-- Once the stack pointer is inside the header the pushed bytes land on the header's own
fields.  After the two pushes above a third push of 16 zero bytes is accepted as well, is
copied over `regs[7]` and `size`, and leaves a capacity of 0; only then is a push of one
byte refused. -/
theorem vs_store_overwrites_header :
    vs_store_all ⟨4096, 16, 4192⟩
        [(8192, fun _ => 0, 16), (8192, fun _ => 0, 8), (8192, fun _ => 0, 16),
          (8192, fun _ => 0, 1)]
      = ([4176, 4168, 4152, 0], ⟨4096, 0, 4152⟩) := by
  decide

/-- A copy that writes no byte of a word leaves the word as it was. -/
theorem field_after_copy_untouched (field old dest : Nat) (bytes : Nat → Nat) (n : Nat)
    (hold : old < 2 ^ 64)
    (hmiss : ∀ i, i < 8 →
      ¬ ((field + i) % 2 ^ 64 + 2 ^ 64 - dest % 2 ^ 64) % 2 ^ 64 < n) :
    field_after_copy field old dest bytes n = old := by
  unfold field_after_copy
  have h0 := hmiss 0 (by norm_num)
  have h1 := hmiss 1 (by norm_num)
  have h2 := hmiss 2 (by norm_num)
  have h3 := hmiss 3 (by norm_num)
  have h4 := hmiss 4 (by norm_num)
  have h5 := hmiss 5 (by norm_num)
  have h6 := hmiss 6 (by norm_num)
  have h7 := hmiss 7 (by norm_num)
  simp only [List.range, List.range.loop, List.map_cons, List.map_nil, List.sum_cons,
    List.sum_nil, if_neg h0, if_neg h1, if_neg h2, if_neg h3, if_neg h4, if_neg h5, if_neg h6,
    if_neg h7]
  norm_num
  omega

theorem field_after_copy_untouched_witness :
    field_after_copy 4160 16 4176 (fun _ => 1) 16 = 16 :=
  field_after_copy_untouched 4160 16 4176 (fun _ => 1) 16 (by decide) (by decide)

/-! ## Facts about the example handler -/

/-- C10.  Bracket discipline.  For every command, argument pointer, buffer content and
outcome of `copy_from_user` and `copy_to_user`, the gateway calls of one invocation of
`ioctl` are none at all or exactly `ecall_eenter` followed by `ecall_eexit`; the bracket is
made exactly when the command is `IOCTL_UPDATE_BUF` and the argument pointer is not
`NULL`. -/
theorem ioctl_bracket (IOCTL_UPDATE_BUF : Nat) (env : IoctlEnv) (cmd arg : Nat) :
    ((ioctl IOCTL_UPDATE_BUF env cmd arg).2.1 = []
        ∨ (ioctl IOCTL_UPDATE_BUF env cmd arg).2.1 = [Ecall.ecall_eenter, Ecall.ecall_eexit])
      ∧ ((ioctl IOCTL_UPDATE_BUF env cmd arg).2.1 = [Ecall.ecall_eenter, Ecall.ecall_eexit]
          ↔ cmd = IOCTL_UPDATE_BUF ∧ arg ≠ 0) := by
  unfold ioctl
  dsimp only
  split_ifs <;> simp_all

end Lattice
